import Mathlib

/-!
Verification of the hivemind-go orchestration core against its specification.

The Go source is shallowly embedded: pure functions become Lean functions,
the agent loop becomes an explicit step function on an agent-state record
driven by a schedule of per-pass inputs (the LLM response and the set of
background jobs whose outcome became ready), and fallible operations return
`Option` or `Except`.  Strings are handled as `String` / `List Char`;
Go byte indices coincide with character indices for the reasoning done here.
-/

namespace Hivemind

/-! ## JSON values

Models the dynamic values produced by Go's `encoding/json` when decoding
into `interface\x7b\x7d` / `map[string]interface\x7b\x7d`.  Numbers are
restricted to integers (Go decodes to float64; none of the verified claims
involve fractional numbers), and string escapes `\uXXXX` are not modelled. -/

inductive JVal where
  | null : JVal
  | jbool : Bool → JVal
  | jnum : Int → JVal
  | jstr : String → JVal
  | jarr : List JVal → JVal
  | jobj : List (String × JVal) → JVal

/-- Whitespace recognized by the JSON grammar (RFC 8259). -/
def isJsonWs (c : Char) : Bool :=
  c = ' ' || c = '\t' || c = '\n' || c = '\r'

/-- Drop leading JSON whitespace. -/
def skipWs : List Char → List Char
  | [] => []
  | c :: cs => if isJsonWs c then skipWs cs else c :: cs

/-- Decode a single JSON escape character (the char after backslash). -/
def escChar (e : Char) : Option Char :=
  if e = '"' || e = '\\' || e = '/' then some e
  else if e = 'n' then some '\n'
  else if e = 't' then some '\t'
  else if e = 'r' then some '\r'
  else if e = 'b' then some (Char.ofNat 8)
  else if e = 'f' then some (Char.ofNat 12)
  else none

/-- Consume an expected literal character sequence from the input. -/
def dropLit : List Char → List Char → Option (List Char)
  | [], cs => some cs
  | l :: ls, c :: cs => if c = l then dropLit ls cs else none
  | _ :: _, [] => none

/-- Scan a JSON string body (the opening quote already consumed); returns
the decoded characters and the remaining input after the closing quote. -/
def scanStr : List Char → Option (List Char × List Char)
  | [] => none
  | c :: cs =>
    if c = '"' then some ([], cs)
    else if c = '\\' then
      match cs with
      | [] => none
      | e :: cs' =>
        match escChar e with
        | none => none
        | some ec =>
          match scanStr cs' with
          | none => none
          | some (s, r) => some (ec :: s, r)
    else
      match scanStr cs with
      | none => none
      | some (s, r) => some (c :: s, r)

/-- Scan a run of decimal digits, returning its value, width and the rest. -/
def scanDigits : List Char → Nat → Nat → (Nat × Nat × List Char)
  | [], acc, w => (acc, w, [])
  | c :: cs, acc, w =>
    if c.isDigit then scanDigits cs (acc * 10 + (c.toNat - 48)) (w + 1)
    else (acc, w, c :: cs)

/-- Scan a JSON integer (optional minus, one or more digits). -/
def scanInt (cs : List Char) : Option (Int × List Char) :=
  match cs with
  | '-' :: rest =>
    match scanDigits rest 0 0 with
    | (_, 0, _) => none
    | (n, _ + 1, r) => some (-(n : Int), r)
  | _ =>
    match scanDigits cs 0 0 with
    | (_, 0, _) => none
    | (n, _ + 1, r) => some ((n : Int), r)

mutual

/-- Parse one JSON value (fuel-indexed recursive descent). -/
def parseVal : Nat → List Char → Option (JVal × List Char)
  | 0, _ => none
  | fuel + 1, cs =>
    match skipWs cs with
    | 'n' :: r =>
      match dropLit ['u', 'l', 'l'] r with
      | some rest => some (.null, rest)
      | none => none
    | 't' :: r =>
      match dropLit ['r', 'u', 'e'] r with
      | some rest => some (.jbool true, rest)
      | none => none
    | 'f' :: r =>
      match dropLit ['a', 'l', 's', 'e'] r with
      | some rest => some (.jbool false, rest)
      | none => none
    | '"' :: r =>
      match scanStr r with
      | none => none
      | some (s, rest) => some (.jstr (String.mk s), rest)
    | '[' :: r => parseArr fuel r
    | '{' :: r => parseObj fuel r
    | other =>
      match scanInt other with
      | none => none
      | some (n, rest) => some (.jnum n, rest)

/-- Parse the inside of a JSON array (after the opening bracket). -/
def parseArr : Nat → List Char → Option (JVal × List Char)
  | 0, _ => none
  | fuel + 1, cs =>
    match skipWs cs with
    | ']' :: r => some (.jarr [], r)
    | other =>
      match parseVal fuel other with
      | none => none
      | some (v, rest) => parseArrRest fuel [v] rest

/-- Parse the remaining elements of a JSON array. -/
def parseArrRest : Nat → List JVal → List Char → Option (JVal × List Char)
  | 0, _, _ => none
  | fuel + 1, acc, cs =>
    match skipWs cs with
    | ']' :: r => some (.jarr acc.reverse, r)
    | ',' :: r =>
      match parseVal fuel r with
      | none => none
      | some (v, rest) => parseArrRest fuel (v :: acc) rest
    | _ => none

/-- Parse the inside of a JSON object (after the opening brace). -/
def parseObj : Nat → List Char → Option (JVal × List Char)
  | 0, _ => none
  | fuel + 1, cs =>
    match skipWs cs with
    | '}' :: r => some (.jobj [], r)
    | '"' :: r =>
      match scanStr r with
      | none => none
      | some (k, rest) => parseMember fuel [] (String.mk k) rest
    | _ => none

/-- Parse one object member value, then the remaining members. -/
def parseMember : Nat → List (String × JVal) → String → List Char →
    Option (JVal × List Char)
  | 0, _, _, _ => none
  | fuel + 1, acc, k, cs =>
    match skipWs cs with
    | ':' :: r =>
      match parseVal fuel r with
      | none => none
      | some (v, rest) => parseObjRest fuel ((k, v) :: acc) rest
    | _ => none

/-- Parse the remaining members of a JSON object. -/
def parseObjRest : Nat → List (String × JVal) → List Char →
    Option (JVal × List Char)
  | 0, _, _ => none
  | fuel + 1, acc, cs =>
    match skipWs cs with
    | '}' :: r => some (.jobj acc.reverse, r)
    | ',' :: r =>
      match skipWs r with
      | '"' :: r' =>
        match scanStr r' with
        | none => none
        | some (k, rest) => parseMember fuel acc (String.mk k) rest
      | _ => none
    | _ => none

end

/-- Parse a complete JSON document: one value with only whitespace after it.
Models the success/failure behaviour of `json.Unmarshal` on the grammar
fragment described at `JVal`. -/
def jsonParse (cs : List Char) : Option JVal :=
  match parseVal (cs.length + 1) cs with
  | none => none
  | some (v, rest) =>
    match skipWs rest with
    | [] => some v
    | _ => none

/-! ## Action decoding (builder.go, `LLMResponseAction` / `parseLLMResponse`) -/

/-- Transient action structure parsed from model output
(struct `LLMResponseAction` in the source). -/
structure LLMResponseAction where
  action : String
  actionInput : List (String × JVal)
  thought : String
  status : String

/-- Lookup in a decoded JSON object with Go map semantics: when a key is
repeated, the last occurrence wins. -/
def lookupLastField (fields : List (String × JVal)) (k : String) : Option JVal :=
  match fields with
  | [] => none
  | (k', v) :: rest =>
    match lookupLastField rest k with
    | some v' => some v'
    | none => if k' = k then some v else none

/-- Decode a struct field of type `string`: absent or JSON null leaves the
zero value, a JSON string fills it, any other JSON type is an unmarshal
type error (`none`). -/
def fieldString (fields : List (String × JVal)) (k : String) : Option String :=
  match lookupLastField fields k with
  | none => some ""
  | some .null => some ""
  | some (.jstr s) => some s
  | some _ => none

/-- Decode a struct field of type `map[string]interface\x7b\x7d`: absent or
null leaves the nil map, a JSON object fills it, anything else errors. -/
def fieldObj (fields : List (String × JVal)) (k : String) :
    Option (List (String × JVal)) :=
  match lookupLastField fields k with
  | none => some []
  | some .null => some []
  | some (.jobj o) => some o
  | some _ => none

/-- Models `json.Unmarshal(jsonStr, &parsedResponse)` for the
`LLMResponseAction` struct: the document must be a JSON object, and each of
the four tagged fields must decode at its declared type. -/
def unmarshalAction (cs : List Char) : Option LLMResponseAction :=
  match jsonParse cs with
  | some (.jobj fields) =>
    match fieldString fields "action", fieldObj fields "action_input",
        fieldString fields "thought", fieldString fields "status" with
    | some a, some ai, some th, some st => some ⟨a, ai, th, st⟩
    | _, _, _, _ => none
  | _ => none

/-- Index of the first occurrence of a character
(models `strings.Index(s, c)` up to the -1/Option encoding). -/
def idxOfChar (c : Char) : List Char → Option Nat
  | [] => none
  | x :: xs => if x = c then some 0 else (idxOfChar c xs).map (· + 1)

/-- Index of the last occurrence of a character
(models `strings.LastIndex`). -/
def lastIdxOfChar (c : Char) (cs : List Char) : Option Nat :=
  (idxOfChar c cs.reverse).map (fun k => cs.length - 1 - k)

/-- Span extraction performed by `parseLLMResponse` in the source:
`start := strings.Index(s, "\x7b")`, `end := strings.LastIndex(s, "\x7d")`,
error if either is missing or start > end, else the slice
`s[start : end+1]`. -/
def extractSpan (cs : List Char) : Option (List Char) :=
  match idxOfChar '{' cs, lastIdxOfChar '}' cs with
  | some s, some e => if s ≤ e then some ((cs.drop s).take (e + 1 - s)) else none
  | _, _ => none

/-- Models `JSONOutputLLM.parseLLMResponse`: extract the span between the
first opening brace and the last closing brace, then unmarshal it into an
`LLMResponseAction`.  `none` covers both Go error returns. -/
def parseLLMResponse (cs : List Char) : Option LLMResponseAction :=
  (extractSpan cs).bind unmarshalAction

/-- Modelled from the spec: helper scan for `firstBalancedSpan`, tracking
the current brace depth and the accumulated (reversed) span. -/
def balancedScan : Nat → List Char → List Char → Option (List Char)
  | _, _, [] => none
  | d, acc, c :: r =>
    if c = '}' then
      if d = 1 then some ((c :: acc).reverse) else balancedScan (d - 1) (c :: acc) r
    else if c = '{' then balancedScan (d + 1) (c :: acc) r
    else balancedScan d (c :: acc) r

/-- Modelled from the spec: "The codec extracts the first balanced
`\x7b...\x7d` span from raw model output".  This is the specification-side
extractor, to be compared with `extractSpan` from the source. -/
def firstBalancedSpan : List Char → Option (List Char)
  | [] => none
  | c :: r => if c = '{' then balancedScan 1 [c] r else firstBalancedSpan r

/-! ## Substring helpers (used to state what an error text names) -/

/-- Whether `p` is an initial segment of `s`. -/
def leadsWith : List Char → List Char → Bool
  | [], _ => true
  | p :: ps, c :: cs => p = c && leadsWith ps cs
  | _, _ => false

/-- Whether `p` occurs contiguously anywhere inside `s`. -/
def containsSeg (p : List Char) : List Char → Bool
  | [] => leadsWith p []
  | c :: cs => leadsWith p (c :: cs) || containsSeg p cs

/-! ## Messages and history strategies (pkg/types, pkg/history) -/

/-- Conversation message (struct `types.Message`). -/
structure Message where
  role : String
  content : String
  msgType : String
deriving DecidableEq

/-- Models `NoOpStrategy.Apply`: the Go code copies the slice and returns
the copy; on immutable Lean lists the copy is the identity. -/
def noOpApply (messages : List Message) : List Message :=
  messages

/-- Default history strategy installed by `NewAgent`
(`historyStrategy: &history.NoOpStrategy\x7b\x7d`), left unchanged by
`BuildAgent`, which passes no `WithHistoryStrategy` option. -/
def defaultHistoryApply (messages : List Message) : List Message :=
  noOpApply messages

/-- Models `KeepLastN.Apply` with `N : Int` (a Go `int` may be
non-positive): if `N <= 0` or `N >= len(messages)` return a copy of the
whole sequence, else return the last `N` messages. -/
def keepLastNApply (n : Int) (messages : List Message) : List Message :=
  if n ≤ 0 ∨ (messages.length : Int) ≤ n then messages
  else messages.drop (messages.length - n.toNat)

/-! ## Shared Context (pkg/tools/context.go)

Aliasing is made explicit with a heap: a `Context` entry stores an address
into a heap of Go values, mutation of the referenced value is a heap
update, and `Copy` either reuses an address (shared key) or allocates a
fresh address holding a structural clone.  `GoVal.vfun` stands for a value
that gob cannot serialize (function, channel, unregistered type). -/

inductive GoVal where
  | vnil : GoVal
  | vint : Int → GoVal
  | vstr : String → GoVal
  | vbool : Bool → GoVal
  | varr : List GoVal → GoVal
  | vmap : List (String × GoVal) → GoVal
  | vfun : GoVal

mutual

/-- Whether a value contains data that `encoding/gob` cannot encode. -/
def hasNonSerializable : GoVal → Bool
  | .vnil => false
  | .vint _ => false
  | .vstr _ => false
  | .vbool _ => false
  | .varr xs => listHasNonSerializable xs
  | .vmap fs => fieldsHaveNonSerializable fs
  | .vfun => true

/-- List version of `hasNonSerializable`. -/
def listHasNonSerializable : List GoVal → Bool
  | [] => false
  | v :: vs => hasNonSerializable v || listHasNonSerializable vs

/-- Map version of `hasNonSerializable`. -/
def fieldsHaveNonSerializable : List (String × GoVal) → Bool
  | [] => false
  | (_, v) :: fs => hasNonSerializable v || fieldsHaveNonSerializable fs

end

/-- Models `deepCopyValue`: nil passes through; otherwise a gob
encode/decode round-trip, which fails when the value holds
non-serializable data and otherwise yields a structural clone (on the pure
value representation, the clone is the value itself; independence lives at
the address level). -/
def deepCopyValue (v : GoVal) : Except String GoVal :=
  match v with
  | .vnil => .ok .vnil
  | _ =>
    if hasNonSerializable v then .error "failed to gob encode value"
    else .ok v

/-- Heap of Go values; an address is an index.  Allocation appends. -/
abbrev Heap := List GoVal

/-- Read the value at an address (addresses held by a context are always
in range; out-of-range reads default to nil). -/
def Heap.readAt (h : Heap) (a : Nat) : GoVal :=
  (List.getD h a .vnil : GoVal)

/-- Mutate the value stored at an address (an in-place mutation of the
object a context entry references). -/
def Heap.writeAt (h : Heap) (a : Nat) (v : GoVal) : Heap :=
  (List.set h a v : List GoVal)

/-- Models `tools.Context`: entries map keys to heap addresses, and
`sharedKeys` records the keys set with `shallowCopy = true`. -/
structure Context where
  entries : List (String × Nat)
  sharedKeys : List String

/-- Models `Context.Get` at the address level. -/
def Context.addrOf (c : Context) (k : String) : Option Nat :=
  (c.entries.lookup k : Option Nat)

/-- Value observed through a context for key `k`. -/
def Context.readVal (c : Context) (h : Heap) (k : String) : Option GoVal :=
  (c.addrOf k).map h.readAt

/-- Heap after mutating, through context `c`, the object `k` refers to. -/
def Context.mutate (c : Context) (h : Heap) (k : String) (v : GoVal) : Heap :=
  match c.addrOf k with
  | some a => h.writeAt a v
  | none => h

/-- Copy loop of `Context.Copy`: a shared key keeps its address, any other
entry is deep-copied into a freshly allocated address; the first
non-duplicable value aborts with the wrapped error. -/
def copyEntries (shared : List String) :
    List (String × Nat) → Heap → Except String (List (String × Nat) × Heap)
  | [], h => .ok ([], h)
  | (k, a) :: rest, h =>
    if k ∈ shared then
      match copyEntries shared rest h with
      | .error e => .error e
      | .ok (es, h') => .ok ((k, a) :: es, h')
    else
      match deepCopyValue (h.readAt a) with
      | .error e => .error ("failed to deep copy value for key '" ++ k ++ "': " ++ e)
      | .ok v' =>
        match copyEntries shared rest (h ++ [v']) with
        | .error e => .error e
        | .ok (es, h') => .ok ((k, h.length) :: es, h')

/-- Models `Context.Copy`: the shared-key set is inherited, each entry is
either reference-shared or independently duplicated, and a duplication
failure aborts the whole copy. -/
def Context.copy (c : Context) (h : Heap) : Except String (Context × Heap) :=
  match copyEntries c.sharedKeys c.entries h with
  | .error e => .error e
  | .ok (es, h') => .ok (⟨es, c.sharedKeys⟩, h')

/-! ## Go fmt `%v` rendering (used in background-job messages)

Models `fmt.Sprintf("%v", x)` on values decoded from JSON: maps render as
`map[k:v ...]` with keys sorted, slices as `[a b c]`, strings raw. -/

/-- Insert a rendered key/value pair keeping keys sorted. -/
def insertPair (p : String × String) : List (String × String) → List (String × String)
  | [] => [p]
  | q :: qs => if p.1 ≤ q.1 then p :: q :: qs else q :: insertPair p qs

/-- Sort rendered key/value pairs by key (fmt sorts map keys). -/
def sortPairs : List (String × String) → List (String × String)
  | [] => []
  | p :: ps => insertPair p (sortPairs ps)

/-- Join rendered map entries as `k:v` separated by spaces. -/
def joinPairs : List (String × String) → String
  | [] => ""
  | [p] => p.1 ++ ":" ++ p.2
  | p :: q :: ps => p.1 ++ ":" ++ p.2 ++ " " ++ joinPairs (q :: ps)

mutual

/-- Render one decoded JSON value the way Go fmt `%v` prints it. -/
def goFmtV : JVal → String
  | .null => "<nil>"
  | .jbool b => if b then "true" else "false"
  | .jnum n => toString n
  | .jstr s => s
  | .jarr xs => "[" ++ goFmtArr xs ++ "]"
  | .jobj fs => "map[" ++ joinPairs (sortPairs (goFmtFields fs)) ++ "]"

/-- Render slice elements separated by spaces. -/
def goFmtArr : List JVal → String
  | [] => ""
  | [x] => goFmtV x
  | x :: y :: xs => goFmtV x ++ " " ++ goFmtArr (y :: xs)

/-- Render each map entry's value. -/
def goFmtFields : List (String × JVal) → List (String × String)
  | [] => []
  | (k, v) :: fs => (k, goFmtV v) :: goFmtFields fs

end

/-! ## Agent loop (pkg/agent, `Agent.Run`)

The loop is embedded as a step function over an explicit state.  External
effects are drawn from a per-pass input schedule: the LLM response text for
the invocation a pass performs, and the set of background jobs whose
outcome became ready before the pass polls them.  Modelling choices, each
claim-neutral: the fully built system prompt is taken as a given string
(`buildSystemPrompt` only renders the tool catalog); the LLM call is
assumed to succeed (a terminal LLM error aborts `Run` with an error, a
path none of the verified claims exercises); uuid job ids are replaced by
a per-agent counter. -/

/-- Synchronous outcome of one tool execution (`executeTool`): a result
text or an error text; a timeout surfaces as an error like any other. -/
abbrev ToolFn := List (String × JVal) → Except String String

/-- Tool registry (`Agent.tools`); a Go map iterated in list order here. -/
abbrev ToolReg := List (String × ToolFn)

/-- Registry lookup with Go map semantics (a duplicated name keeps the
last registration, as `WithTools` overwrites). -/
def toolLookup (reg : ToolReg) (name : String) : Option ToolFn :=
  match reg with
  | [] => none
  | (n, f) :: rest =>
    match toolLookup rest name with
    | some g => some g
    | none => if n = name then some f else none

/-- Models `Agent.getToolNames` (map key order is arbitrary in Go; the
model uses registration order). -/
def getToolNames (reg : ToolReg) : List String :=
  reg.map (fun t => t.1)

/-- Go type assertion `v.(string)`: the zero value on any non-string. -/
def jStrAssert : Option JVal → String
  | some (.jstr s) => s
  | _ => ""

/-- Go type assertion `v.(bool)`: false on any non-bool. -/
def jBoolAssert : Option JVal → Bool
  | some (.jbool b) => b
  | _ => false

/-- Completion test of the loop:
`action.Status == "complete" || (action.Action == "finish" && action.Status != "continue")`. -/
def isCompleteSignal (a : LLMResponseAction) : Bool :=
  a.status == "complete" || (a.action == "finish" && a.status != "continue")

/-- Finish payload: `action.ActionInput["final_response"].(string)`. -/
def finalRespOf (input : List (String × JVal)) : String :=
  jStrAssert (lookupLastField input "final_response")

/-- Tracked background job (struct `Job`; channels and the cancellation
scope are replaced by the outcome schedule). -/
structure JobM where
  id : Nat
  toolName : String
  input : List (String × JVal)

/-- Agent loop state: the message log, the tracked-job set, the
`isWaitingForJobs` flag and the iteration counter of `Agent.Run`. -/
structure AgentState where
  messages : List Message
  jobs : List JobM
  waiting : Bool
  iter : Nat
  nextJobId : Nat

/-- External inputs consumed by one pass of the loop body. -/
structure PassInput where
  resp : String
  ready : List (Nat × Except String String)

/-- Result of one pass: `Run` returns (`done`) or the loop continues. -/
inductive PassResult where
  | done : String → AgentState → PassResult
  | cont : AgentState → PassResult

/-- Fixed message texts appended by the loop (`parseErrMsg` elides the
`%v` error detail Go interpolates; no claim inspects it). -/
def assistantMsg (resp : String) : Message :=
  ⟨"assistant", resp, "llm_output"⟩

/-- Message appended on a parse failure. -/
def parseErrMsg : Message :=
  ⟨"user", "解析 LLM 响应失败. 将此错误告知 LLM 并重试。", "parse_error"⟩

/-- Note appended when completion is requested while jobs still run. -/
def completeBusyNote : Message :=
  ⟨"user", "系统提示: 你的完成请求已收到，但后台任务仍在运行。系统将等待它们完成后再生成最终摘要。要明确等待而不结束，请使用 'wait' 动作。", "system_note"⟩

/-- Note appended when the waiting state observes an empty job set. -/
def allDoneNote : Message :=
  ⟨"user", "所有后台任务已完成，请总结结果。", "system_note"⟩

/-- Warning appended on a `wait` action with no tracked jobs. -/
def waitWarnMsg : Message :=
  ⟨"user", "警告: 你使用了 'wait' 动作，但没有正在运行的后台任务。请选择另一个动作或使用 'finish' 完成任务。", "system_warning"⟩

/-- Error message appended when the action names an unknown tool. -/
def unknownToolMsg (name : String) (reg : ToolReg) : Message :=
  ⟨"user", "错误: 工具 '" ++ name ++ "' 不存在。可用工具: " ++
    String.intercalate ", " (getToolNames reg), "tool_error"⟩

/-- Rendering of a failed synchronous tool execution. -/
def toolFailText (name e : String) : String :=
  "工具 '" ++ name ++ "' 执行失败: " ++ e

/-- Message appended with a synchronous tool outcome. -/
def toolResultMsg (content : String) : Message :=
  ⟨"user", content, "tool_result"⟩

/-- Message appended when a background task is launched. -/
def bgStartMsg (name : String) (id : Nat) : Message :=
  ⟨"user", "后台任务已启动。任务名称: '" ++ name ++ "', 任务ID: '" ++ toString id ++
    "'。你可以继续执行其他操作，稍后会自动收到结果。", "tool_result"⟩

/-- Message injected for a completed background job. -/
def bgResultMsg (j : JobM) (r : String) : Message :=
  ⟨"user", "后台任务 '" ++ j.toolName ++ "' (" ++ toString j.id ++ ") 已完成。\n参数: " ++
    goFmtV (.jobj j.input) ++ "\n结果:\n" ++ r, "background_tool_result"⟩

/-- Message injected for a failed background job. -/
def bgErrorMsg (j : JobM) (e : String) : Message :=
  ⟨"user", "后台任务 '" ++ j.toolName ++ "' (" ++ toString j.id ++ ") 失败。\n参数: " ++
    goFmtV (.jobj j.input) ++ "\n错误: " ++ e, "background_tool_error"⟩

/-- Fallback text returned when the iteration budget is exhausted. -/
def fallbackText : String :=
  "已达到最大迭代次数，但未找到答案。"

/-- Models `checkAndInjectBackgroundJobs`: poll every tracked job, inject
a result or error message for each one whose outcome is ready, remove it
from tracking, and report whether anything was injected. -/
def drainJobs (msgs : List Message) (jobs : List JobM)
    (ready : List (Nat × Except String String)) :
    List Message × List JobM × Bool :=
  match jobs with
  | [] => (msgs, [], false)
  | j :: rest =>
    match (List.lookup j.id ready : Option (Except String String)) with
    | some (.ok r) =>
      let d := drainJobs (msgs ++ [bgResultMsg j r]) rest ready
      (d.1, d.2.1, true)
    | some (.error e) =>
      let d := drainJobs (msgs ++ [bgErrorMsg j e]) rest ready
      (d.1, d.2.1, true)
    | none =>
      let d := drainJobs msgs rest ready
      (d.1, j :: d.2.1, d.2.2)

/-- Dispatch on a parsed action: the completion check, the `wait` action,
synchronous or background tool execution, and the unknown-tool fallback,
in source order. -/
def handleAction (reg : ToolReg) (a : LLMResponseAction) (st : AgentState) :
    PassResult :=
  if isCompleteSignal a then
    if st.jobs.isEmpty then
      .done (finalRespOf a.actionInput) st
    else
      .cont { st with messages := st.messages ++ [completeBusyNote], waiting := true }
  else if a.action = "wait" then
    if st.jobs.isEmpty then
      .cont { st with messages := st.messages ++ [waitWarnMsg] }
    else
      .cont { st with waiting := true }
  else
    match toolLookup reg a.action with
    | some f =>
      if jBoolAssert (lookupLastField a.actionInput "run_in_background") then
        .cont { st with
          jobs := st.jobs ++ [⟨st.nextJobId, a.action, a.actionInput⟩],
          nextJobId := st.nextJobId + 1,
          messages := st.messages ++ [bgStartMsg a.action st.nextJobId] }
      else
        match f a.actionInput with
        | .ok r => .cont { st with messages := st.messages ++ [toolResultMsg r] }
        | .error e =>
          .cont { st with messages := st.messages ++ [toolResultMsg (toolFailText a.action e)] }
    | none => .cont { st with messages := st.messages ++ [unknownToolMsg a.action reg] }

/-- Iteration-consuming part of a pass: count the iteration, invoke the
model (the response comes from the schedule), append it as an assistant
message, parse it, and either feed a parse error back or dispatch. -/
def passInvoke (reg : ToolReg) (resp : String) (st : AgentState) : PassResult :=
  let st1 : AgentState :=
    { st with iter := st.iter + 1, messages := st.messages ++ [assistantMsg resp] }
  match parseLLMResponse resp.data with
  | none => .cont { st1 with messages := st1.messages ++ [parseErrMsg] }
  | some a => handleAction reg a st1

/-- One full pass of the loop body: drain ready jobs (leaving the waiting
state if anything was injected), then either keep waiting, note that all
background tasks finished and proceed, or proceed directly. -/
def agentPass (reg : ToolReg) (inp : PassInput) (st : AgentState) : PassResult :=
  let d := drainJobs st.messages st.jobs inp.ready
  let st1 : AgentState :=
    { st with messages := d.1, jobs := d.2.1,
              waiting := if d.2.2 then false else st.waiting }
  if st1.waiting then
    if st1.jobs.isEmpty then
      passInvoke reg inp.resp
        { st1 with messages := st1.messages ++ [allDoneNote], waiting := false }
    else
      .cont st1
  else
    passInvoke reg inp.resp st1

/-- Outcome of `Agent.Run`: an explicit completion carrying the final
response, iteration-budget exhaustion, or schedule (fuel) exhaustion while
the Go loop would still be polling. -/
inductive RunOutcome where
  | finished : String → AgentState → RunOutcome
  | budget : AgentState → RunOutcome
  | noFuel : AgentState → RunOutcome

/-- Go-level return value of `Run`: `finished r` is `(r, nil)`, `budget`
is the fallback text with nil error; fuel exhaustion has no Go return. -/
def goReturn : RunOutcome → Option (String × Option String)
  | .finished r _ => some (r, none)
  | .budget _ => some (fallbackText, none)
  | .noFuel _ => none

/-- Whether the run ended through an explicit completion action. -/
def isFinishedOutcome : RunOutcome → Bool
  | .finished _ _ => true
  | _ => false

/-- Models the `for iterationCount < a.maxIterations` loop of `Agent.Run`,
driven by the pass-input schedule. -/
def runLoop (reg : ToolReg) (maxIterations : Nat) (inputs : List PassInput)
    (st : AgentState) : RunOutcome :=
  if st.iter < maxIterations then
    match inputs with
    | [] => .noFuel st
    | inp :: rest =>
      match agentPass reg inp st with
      | .done r fs => .finished r fs
      | .cont st' => runLoop reg maxIterations rest st'
  else
    .budget st

/-- State of `Run` after its preamble: the built system prompt and the
user input are appended, nothing else is initialized. -/
def initState (fullSystemPrompt userInput : String) : AgentState :=
  { messages := [⟨"system", fullSystemPrompt, "system_prompt"⟩,
                 ⟨"user", userInput, "user_input"⟩],
    jobs := [], waiting := false, iter := 0, nextJobId := 0 }

/-- Models `Agent.Run` from the preamble on. -/
def agentRun (reg : ToolReg) (maxIterations : Nat) (inputs : List PassInput)
    (sys user : String) : RunOutcome :=
  runLoop reg maxIterations inputs (initState sys user)

/-! ## Parallel task delegator (pkg/assistants, `ParallelTaskDelegator.Execute`)

Each task's goroutine touches only `results[i]` / `errs[i]`; after
`wg.Wait()` the aggregation reads the slots in index order, so the
concurrent fill is embedded as an index-wise computation of the two slots.
The external work a goroutine performs (context copy, child build, child
run) is abstracted as a per-task outcome oracle. -/

/-- Outcome of the external calls inside one task's goroutine. -/
inductive ChildOutcome where
  | copyFail : String → ChildOutcome
  | buildFail : String → ChildOutcome
  | runFail : String → ChildOutcome
  | ok : String → ChildOutcome

/-- Slot pair `(results[i], errs[i])` after task `i`'s goroutine ended
(`""` is the Go zero value of an unwritten `results` slot). -/
def taskSlots (env : Nat → String → ChildOutcome) (i : Nat) (task : JVal) :
    String × Option String :=
  match task with
  | .jstr s =>
    match env i s with
    | .copyFail e => ("", some ("任务 #" ++ toString i ++ ": 创建上下文失败: " ++ e))
    | .buildFail e => ("", some ("任务 #" ++ toString i ++ ": 构建 agent 失败: " ++ e))
    | .runFail e => ("子 agent 执行失败: " ++ e,
        some ("任务 #" ++ toString i ++ ": 执行失败: " ++ e))
    | .ok r => (r, none)
  | _ => ("任务 #" ++ toString i ++ " 的输入无效（不是字符串）", none)

/-- One labeled section of the aggregate output together with the error
string it contributes to `aggregatedErrs` (if any). -/
def sectionOf (i : Nat) (slots : String × Option String) : String × Option String :=
  match slots.2 with
  | some e =>
    ("--- 任务 #" ++ toString (i + 1) ++ " 结果 ---\n" ++ ("错误: " ++ e) ++ "\n",
     some ("错误: " ++ e))
  | none =>
    ("--- 任务 #" ++ toString (i + 1) ++ " 结果 ---\n" ++ slots.1 ++ "\n", none)

/-- Aggregation loop over the filled slots: the `strings.Builder` fold and
the `aggregatedErrs` accumulation of the source, walking the tasks from
index `i`. -/
def aggregate (env : Nat → String → ChildOutcome) (i : Nat) :
    List JVal → String × List String
  | [] => ("", [])
  | t :: ts =>
    let sec := sectionOf i (taskSlots env i t)
    let rest := aggregate env (i + 1) ts
    (sec.1 ++ rest.1,
     match sec.2 with
     | some e => e :: rest.2
     | none => rest.2)

/-- Models `ParallelTaskDelegator.Execute`: validate the `tasks` argument,
fill every slot, aggregate in input order, and return the aggregated text
together with the combined error when at least one slot failed.  The Go
pair `(string, error)` is returned as text plus optional error text. -/
def parallelExecute (env : Nat → String → ChildOutcome)
    (args : List (String × JVal)) : String × Option String :=
  match lookupLastField args "tasks" with
  | some (.jarr tasks) =>
    let agg := aggregate env 0 tasks
    (agg.1,
     if agg.2.isEmpty then none
     else some (String.intercalate "; " agg.2))
  | _ => ("", some "无效的参数：'tasks' 必须是一个字符串列表")

/-! ## Concrete inputs used by witnesses and counterexamples -/

/-- Ten-message sequence used to instantiate `keepLastN_apply_spec`. -/
def tenMessages : List Message :=
  (List.range 10).map (fun i => ⟨"user", toString i, "user_input"⟩)

/-- Concrete well-formed Action JSON used in the C1 counterexample and
witness. -/
def actionJsonText : String :=
  "\x7b\"thought\":\"t\",\"action\":\"finish\",\"action_input\":\x7b\"final_response\":\"ok\"\x7d,\"status\":\"complete\"\x7d"

/-- Parsed form of `actionJsonText`. -/
def actionOfText : LLMResponseAction :=
  ⟨"finish", [("final_response", .jstr "ok")], "t", "complete"⟩

/-- Inner characters of `actionJsonText` (without the outer braces). -/
def actionJsonMid : List Char :=
  (actionJsonText.data.drop 1).dropLast

/-- Raw model output for the C1 counterexample: a single well-formed
Action JSON object surrounded by prose whose trailing part contains a
closing brace. -/
def bracedProseRaw : String :=
  "Sure: " ++ actionJsonText ++ " hope this helps \x7d"

/-- Concrete context for the C4 witness: key "a" independent, "b" shared. -/
def ctxW : Context := ⟨[("a", 0), ("b", 1)], ["b"]⟩

/-- Concrete heap for the C4 witness. -/
def heapW : Heap := [GoVal.vint 1, GoVal.vstr "x"]

/-- Copy of `ctxW`: "a" moved to the fresh address 2, "b" kept at 1. -/
def ctxW2 : Context := ⟨[("a", 2), ("b", 1)], ["b"]⟩

/-- Heap after copying `ctxW`: the clone of "a"'s value is appended. -/
def heapW2 : Heap := [GoVal.vint 1, GoVal.vstr "x", GoVal.vint 1]

/-- Responses that neither signal completion nor cause the waiting state:
any parse of the response is not a completion signal and, when it names a
registered tool, does not carry the background flag (so no job is ever
started and the waiting state stays unreachable). -/
def benignResp (reg : ToolReg) (r : String) : Prop :=
  ∀ a, parseLLMResponse r.data = some a →
    isCompleteSignal a = false ∧
    ∀ f, toolLookup reg a.action = some f →
      jBoolAssert (lookupLastField a.actionInput "run_in_background") = false

/-- Tracked job used by the C2 witness. -/
def jobW : JobM := ⟨0, "search", []⟩

/-- Agent state with one tracked background job (C2 witness). -/
def stJobsW : AgentState := ⟨[], [jobW], false, 0, 1⟩

/-- Completion action used by the C2 witness. -/
def actFinishW : LLMResponseAction := ⟨"finish", [], "t", "complete"⟩

/-- Pass input whose drain finds nothing ready (C2 witness). -/
def inpIdleW : PassInput := ⟨"irrelevant", []⟩

/-- Two benign pass inputs (unparsable responses) for the C5 witness. -/
def inputsBenignW : List PassInput :=
  [⟨"no json here", []⟩, ⟨"still nothing", []⟩]

/-- One-tool registry used by the C8 and C9 witnesses. -/
def regEchoW : ToolReg := [("echo", fun _ => .ok "hi")]

/-- Raw response naming an unregistered tool (C8 witness). -/
def respUnknownW : String :=
  "\x7b\"thought\":\"x\",\"action\":\"nosuch\",\"action_input\":\x7b\x7d,\"status\":\"continue\"\x7d"

/-- Parsed form of `respUnknownW`. -/
def actUnknownW : LLMResponseAction := ⟨"nosuch", [], "x", "continue"⟩

/-- Pass input carrying `respUnknownW` (C8 witness). -/
def inpUnknownW : PassInput := ⟨respUnknownW, []⟩

/-- Jobless agent state shared by the C8/C9/C10 witnesses. -/
def stEmptyW : AgentState := initState "sys" "ask"

/-- Completion action whose `action` field names the registered tool
"echo" (C9 witness). -/
def actToolCompleteW : LLMResponseAction :=
  ⟨"echo", [("final_response", .jstr "the answer")], "t", "complete"⟩

/-- Completion action whose `final_response` entry is not a string
(C10 witness). -/
def actBadFinalW : LLMResponseAction :=
  ⟨"finish", [("final_response", .jnum 42)], "t", "complete"⟩

/-- Concatenation of a list of strings (used to state the shape of the
aggregated delegator output). -/
def joinAll : List String → String
  | [] => ""
  | s :: rest => s ++ joinAll rest

/-- Child-run oracle for the C3 counterexample: the second task (0-based
index 1) fails, the others succeed. -/
def envCexC3 : Nat → String → ChildOutcome :=
  fun i _ => if i = 1 then .runFail "boom" else .ok "done"

/-- Task list for the C3 counterexample. -/
def tasksCexC3 : List JVal := [.jstr "T1", .jstr "T2", .jstr "T3"]

/-- Arguments for the C3 counterexample call. -/
def argsCexC3 : List (String × JVal) := [("tasks", .jarr tasksCexC3)]

/-! ## Theorems -/

/-- C7: for every message sequence, applying the default history strategy
(the `NoOpStrategy` installed by `NewAgent`) twice yields the same
filtered output as applying it once. -/
theorem default_history_strategy_idempotent (m : List Message) :
    defaultHistoryApply (defaultHistoryApply m) = defaultHistoryApply m :=
  rfl

/-- C6: for every message sequence and every `N` with `1 ≤ N < L`,
`KeepLastN.Apply` returns exactly the last `N` messages in their original
order (the last-`N` suffix, of length `N`, with the remainder being the
untouched front of the sequence); for `N ≥ L` it returns the full
sequence unchanged. -/
theorem keepLastN_apply_spec (msgs : List Message) (n : Int) :
    (1 ≤ n → n < (msgs.length : Int) →
      keepLastNApply n msgs = msgs.drop (msgs.length - n.toNat) ∧
      (keepLastNApply n msgs).length = n.toNat ∧
      msgs.take (msgs.length - n.toNat) ++ keepLastNApply n msgs = msgs) ∧
    ((msgs.length : Int) ≤ n → keepLastNApply n msgs = msgs) := by
  constructor
  · intro h1 h2
    have hcond : ¬(n ≤ 0 ∨ (msgs.length : Int) ≤ n) := by omega
    unfold keepLastNApply
    rw [if_neg hcond]
    refine ⟨rfl, ?_, List.take_append_drop _ _⟩
    rw [List.length_drop]
    omega
  · intro h
    unfold keepLastNApply
    rw [if_pos (Or.inr h)]


/-- Witness for C6: `N = 3` on a 10-message sequence keeps the last 3;
`N = 12 ≥ 10` returns the sequence unchanged. -/
theorem keepLastN_apply_spec_witness :
    keepLastNApply 3 tenMessages =
      tenMessages.drop (tenMessages.length - (3 : Int).toNat) ∧
    keepLastNApply 12 tenMessages = tenMessages :=
  ⟨((keepLastN_apply_spec tenMessages 3).1 (by decide) (by decide)).1,
   (keepLastN_apply_spec tenMessages 12).2 (by decide)⟩

/-- Index of the first occurrence of `c` in `pre ++ c :: rest` when `pre`
does not contain `c`. -/
theorem idxOfChar_append (c : Char) (pre rest : List Char) (hpre : c ∉ pre) :
    idxOfChar c (pre ++ c :: rest) = some pre.length := by
  induction pre with
  | nil => simp [idxOfChar]
  | cons p ps ih =>
    have hne : ¬(p = c) := fun h => hpre (h ▸ List.mem_cons_self p ps)
    have hps : c ∉ ps := fun h => hpre (List.mem_cons_of_mem p h)
    rw [List.cons_append]
    unfold idxOfChar
    rw [if_neg hne, ih hps]
    rfl

/-- Span extraction of `parseLLMResponse` on an object embedded in prose:
when the leading prose contains no opening brace and the trailing prose no
closing brace, the extracted span is exactly the embedded object. -/
theorem extractSpan_embed (pre mid post : List Char)
    (hpre : '{' ∉ pre) (hpost : '}' ∉ post) :
    extractSpan (pre ++ ('{' :: mid ++ ['}']) ++ post) =
      some ('{' :: mid ++ ['}']) := by
  have hfirst : idxOfChar '{' (pre ++ ('{' :: mid ++ ['}']) ++ post) =
      some pre.length := by
    have := idxOfChar_append '{' pre ((mid ++ ['}']) ++ post) hpre
    simpa [List.append_assoc] using this
  have hrev : (pre ++ ('{' :: mid ++ ['}']) ++ post).reverse =
      post.reverse ++ '}' :: (mid.reverse ++ '{' :: pre.reverse) := by
    simp [List.reverse_append]
  have hpost' : '}' ∉ post.reverse := by
    simpa using hpost
  have hlast : lastIdxOfChar '}' (pre ++ ('{' :: mid ++ ['}']) ++ post) =
      some (pre.length + mid.length + 1) := by
    unfold lastIdxOfChar
    rw [hrev, idxOfChar_append '}' post.reverse (mid.reverse ++ '{' :: pre.reverse) hpost']
    simp [Option.map_some']
    omega
  unfold extractSpan
  rw [hfirst, hlast]
  dsimp only
  have hle : pre.length ≤ pre.length + mid.length + 1 := by omega
  rw [if_pos hle]
  have hdrop : (pre ++ ('{' :: mid ++ ['}']) ++ post).drop pre.length =
      ('{' :: mid ++ ['}']) ++ post := by
    rw [List.append_assoc, List.drop_left]
  rw [hdrop]
  have hlen : ('{' :: mid ++ ['}']).length = mid.length + 2 := by
    simp
  have htake : (('{' :: mid ++ ['}']) ++ post).take (mid.length + 2) =
      ('{' :: mid ++ ['}']) := List.take_left' hlen
  have harith : pre.length + mid.length + 1 + 1 - pre.length = mid.length + 2 := by
    omega
  rw [harith, htake]

/-- C1 (amended): `parseLLMResponse` extracts the span from the first
opening brace to the LAST closing brace of the raw output — not the first
balanced span — so extraction and parsing succeed for a well-formed Action
JSON object embedded in prose whenever the leading prose contains no
opening brace and the trailing prose contains no closing brace. -/
theorem parseLLMResponse_embedded (pre mid post : List Char)
    (a : LLMResponseAction)
    (hpre : '{' ∉ pre) (hpost : '}' ∉ post)
    (hj : unmarshalAction ('{' :: mid ++ ['}']) = some a) :
    parseLLMResponse (pre ++ ('{' :: mid ++ ['}']) ++ post) = some a := by
  unfold parseLLMResponse
  rw [extractSpan_embed pre mid post hpre hpost]
  simpa using hj


set_option maxRecDepth 20000 in
/-- Counterexample to C1 as stated: `bracedProseRaw` contains exactly one
well-formed Action JSON object (its first balanced span, which parses),
yet `parseLLMResponse` fails on it, because the extraction runs to the
last closing brace inside the trailing prose. -/
theorem parseLLMResponse_cex :
    parseLLMResponse bracedProseRaw.data = none ∧
    firstBalancedSpan bracedProseRaw.data = some actionJsonText.data ∧
    unmarshalAction actionJsonText.data = some actionOfText :=
  ⟨rfl, rfl, rfl⟩

/-- Witness for the amended C1: a concrete embedding with brace-free
leading and trailing prose parses to the embedded Action. -/
theorem parseLLMResponse_embedded_witness :
    parseLLMResponse ("Answer: ".data ++ ('{' :: actionJsonMid ++ ['}']) ++
      " done".data) = some actionOfText :=
  parseLLMResponse_embedded "Answer: ".data actionJsonMid " done".data
    actionOfText (by decide) (by decide) (by rfl)

/-- Reading a freshly written address returns the written value. -/
theorem readAt_writeAt_eq (h : Heap) (a : Nat) (v : GoVal) (ha : a < h.length) :
    (h.writeAt a v).readAt a = v := by
  unfold Heap.writeAt Heap.readAt
  rw [List.getD_eq_getElem _ _ (by simpa using ha)]
  simp [List.getElem_set_self]

/-- Writing one address leaves every other address unchanged. -/
theorem readAt_writeAt_ne (h : Heap) (a b : Nat) (v : GoVal) (hab : a ≠ b) :
    (h.writeAt a v).readAt b = h.readAt b := by
  unfold Heap.writeAt Heap.readAt
  simp [List.getD_eq_getD_get?, List.get?_eq_getElem?, List.getElem?_set_ne hab]

/-- A successful gob round-trip is a structural clone of the input. -/
theorem deepCopyValue_ok (v w : GoVal) (h : deepCopyValue v = .ok w) : w = v := by
  unfold deepCopyValue at h
  cases v <;> simp_all <;> split at h <;> simp_all

/-- The gob round-trip fails exactly on non-serializable values. -/
theorem deepCopyValue_err (v : GoVal) (h : hasNonSerializable v = true) :
    deepCopyValue v = .error "failed to gob encode value" := by
  unfold deepCopyValue
  cases v <;> simp_all [hasNonSerializable]

/-- Association-list lookup only returns stored pairs. -/
theorem lookupPairMem {β : Type} (l : List (String × β)) (k : String) (v : β) :
    List.lookup k l = some v → (k, v) ∈ l := by
  intro h
  induction l with
  | nil => cases h
  | cons p rest ih =>
    obtain ⟨k', v'⟩ := p
    rw [List.lookup_cons] at h
    by_cases hkk : (k == k') = true
    · rw [hkk] at h
      obtain rfl := Option.some.inj h
      have : k = k' := beq_iff_eq.mp hkk
      subst this
      exact List.mem_cons_self _ _
    · rw [Bool.not_eq_true] at hkk
      rw [hkk] at h
      exact List.mem_cons_of_mem _ (ih h)

/-- Specification of the `Context.Copy` loop: on success the heap only
grows, shared entries keep their address, and every other entry moves to a
fresh address (at or beyond the old heap end) holding the same value. -/
theorem copyEntries_spec (shared : List String) (entries : List (String × Nat)) :
    ∀ (h : Heap), (∀ p ∈ entries, p.2 < h.length) →
      ∀ es h', copyEntries shared entries h = .ok (es, h') →
        (∃ ext, h' = h ++ ext) ∧
        (∀ k a, List.lookup k entries = some a → k ∈ shared →
          List.lookup k es = some a) ∧
        (∀ k a, List.lookup k entries = some a → k ∉ shared →
          ∃ a', List.lookup k es = some a' ∧ h.length ≤ a' ∧ a' < h'.length ∧
            h'.readAt a' = h.readAt a) := by
  induction entries with
  | nil =>
    intro h _ es h' hok
    unfold copyEntries at hok
    obtain ⟨rfl, rfl⟩ : es = [] ∧ h' = h := by
      constructor <;> [exact (Prod.mk.injEq _ _ _ _ ▸ (Except.ok.inj hok)).1.symm ▸ rfl;
        exact ((Prod.mk.injEq _ _ _ _ ▸ (Except.ok.inj hok)).2).symm]
    exact ⟨⟨[], by simp⟩, by simp, by simp⟩
  | cons hd rest ih =>
    intro h hwf es h' hok
    obtain ⟨k₀, a₀⟩ := hd
    have ha₀ : a₀ < h.length := hwf (k₀, a₀) (List.mem_cons_self _ _)
    have hwf' : ∀ p ∈ rest, p.2 < h.length :=
      fun p hp => hwf p (List.mem_cons_of_mem _ hp)
    unfold copyEntries at hok
    by_cases hsh : k₀ ∈ shared
    · rw [if_pos hsh] at hok
      cases hrec : copyEntries shared rest h with
      | error e => rw [hrec] at hok; cases hok
      | ok p =>
        obtain ⟨es₁, h₁⟩ := p
        rw [hrec] at hok
        obtain ⟨h₂, h₃⟩ := Prod.mk.injEq _ _ _ _ ▸ Except.ok.inj hok
        subst h₂; subst h₃
        obtain ⟨⟨ext, hext⟩, hshared, hother⟩ := ih h hwf' es₁ h₁ hrec
        refine ⟨⟨ext, hext⟩, ?_, ?_⟩
        · intro k a hlk hk
          rw [List.lookup_cons] at hlk ⊢
          by_cases hkk : k = k₀
          · simp only [hkk, beq_self_eq_true] at hlk ⊢
            exact hlk
          · have hne : (k == k₀) = false := beq_false_of_ne hkk
            rw [hne] at hlk ⊢
            exact hshared k a hlk hk
        · intro k a hlk hk
          rw [List.lookup_cons] at hlk
          by_cases hkk : k = k₀
          · exact absurd (hkk ▸ hsh) hk
          · have hne : (k == k₀) = false := beq_false_of_ne hkk
            rw [hne] at hlk
            obtain ⟨a', h1, h2, h3, h4⟩ := hother k a hlk hk
            refine ⟨a', ?_, h2, h3, h4⟩
            rw [List.lookup_cons, beq_false_of_ne hkk]
            exact h1
    · rw [if_neg hsh] at hok
      cases hdc : deepCopyValue (h.readAt a₀) with
      | error e => rw [hdc] at hok; cases hok
      | ok v' =>
        rw [hdc] at hok
        dsimp only at hok
        have hv' : v' = h.readAt a₀ := deepCopyValue_ok _ _ hdc
        cases hrec : copyEntries shared rest (h ++ [v']) with
        | error e => rw [hrec] at hok; cases hok
        | ok p =>
          obtain ⟨es₁, h₁⟩ := p
          rw [hrec] at hok
          obtain ⟨h₂, h₃⟩ := Prod.mk.injEq _ _ _ _ ▸ Except.ok.inj hok
          subst h₂; subst h₃
          have hwf₂ : ∀ p ∈ rest, p.2 < (h ++ [v']).length := by
            intro p hp
            have := hwf' p hp
            simp only [List.length_append, List.length_singleton]
            omega
          obtain ⟨⟨ext, hext⟩, hshared, hother⟩ := ih (h ++ [v']) hwf₂ es₁ h₁ hrec
          have hlen₁ : h.length + 1 ≤ h₁.length := by
            rw [hext]
            simp
          refine ⟨⟨[v'] ++ ext, by rw [hext, List.append_assoc]⟩, ?_, ?_⟩
          · intro k a hlk hk
            rw [List.lookup_cons] at hlk
            by_cases hkk : k = k₀
            · exact absurd (hkk ▸ hk) hsh
            · have hne : (k == k₀) = false := beq_false_of_ne hkk
              rw [hne] at hlk
              rw [List.lookup_cons, hne]
              exact hshared k a hlk hk
          · intro k a hlk hk
            rw [List.lookup_cons] at hlk
            by_cases hkk : k = k₀
            · have heq : (k == k₀) = true := beq_iff_eq.mpr hkk
              rw [heq] at hlk
              obtain rfl : a₀ = a := Option.some.inj hlk
              refine ⟨h.length, ?_, le_refl _, by omega, ?_⟩
              · rw [List.lookup_cons, heq]
              · rw [hext]
                unfold Heap.readAt
                rw [List.getD_append _ _ _ _ (by simp)]
                rw [List.getD_append_right _ _ _ _ (le_refl _)]
                simp only [Nat.sub_self, List.getD_cons_zero, hv']
                rfl
            · have hne : (k == k₀) = false := beq_false_of_ne hkk
              rw [hne] at hlk
              obtain ⟨a', h1, h2, h3, h4⟩ := hother k a hlk hk
              refine ⟨a', ?_, by simp at h2; omega, h3, ?_⟩
              · rw [List.lookup_cons, hne]
                exact h1
              · rw [h4]
                unfold Heap.readAt
                rw [List.getD_append _ _ _ _ (hwf' (k, a) (lookupPairMem rest k a hlk))]

/-- The `Context.Copy` loop fails whenever some non-shared entry holds a
non-serializable value. -/
theorem copyEntries_err (shared : List String) (entries : List (String × Nat)) :
    ∀ (h : Heap), (∀ p ∈ entries, p.2 < h.length) →
      ∀ k a, (k, a) ∈ entries → k ∉ shared →
        hasNonSerializable (h.readAt a) = true →
        ∀ r, copyEntries shared entries h ≠ .ok r := by
  induction entries with
  | nil =>
    intro h _ k a hmem
    cases hmem
  | cons hd rest ih =>
    intro h hwf k a hmem hksh hns r hok
    obtain ⟨k₀, a₀⟩ := hd
    have hwf' : ∀ p ∈ rest, p.2 < h.length :=
      fun p hp => hwf p (List.mem_cons_of_mem _ hp)
    unfold copyEntries at hok
    rcases List.mem_cons.mp hmem with hhd | htl
    · obtain ⟨rfl, rfl⟩ := Prod.mk.injEq _ _ _ _ ▸ hhd
      rw [if_neg hksh, deepCopyValue_err _ hns] at hok
      cases hok
    · by_cases hsh : k₀ ∈ shared
      · rw [if_pos hsh] at hok
        cases hrec : copyEntries shared rest h with
        | error e => rw [hrec] at hok; cases hok
        | ok p => exact ih h hwf' k a htl hksh hns p hrec
      · rw [if_neg hsh] at hok
        cases hdc : deepCopyValue (h.readAt a₀) with
        | error e => rw [hdc] at hok; cases hok
        | ok v' =>
          rw [hdc] at hok
          dsimp only at hok
          cases hrec : copyEntries shared rest (h ++ [v']) with
          | error e => rw [hrec] at hok; cases hok
          | ok p =>
            have ha : a < h.length := hwf' (k, a) htl
            have hwf₂ : ∀ p ∈ rest, p.2 < (h ++ [v']).length := by
              intro p hp
              have := hwf' p hp
              simp only [List.length_append, List.length_singleton]
              omega
            have hns₂ : hasNonSerializable ((h ++ [v']).readAt a) = true := by
              unfold Heap.readAt
              rw [List.getD_append _ _ _ _ ha]
              exact hns
            exact ih (h ++ [v']) hwf₂ k a htl hksh hns₂ p hrec

/-- C4: `Copy` produces a new Context in which every shared-marked entry
references the same underlying value (a mutation performed through either
store is observed through both), every other entry is an independent
structural clone at a fresh address (no mutation through either store is
visible through the other), and a non-duplicable non-shared value makes
`Copy` return an error instead of a Context. -/
theorem context_copy_spec (c : Context) (h : Heap)
    (hwf : ∀ p ∈ c.entries, p.2 < h.length) :
    (∀ c' h', c.copy h = .ok (c', h') →
      c'.sharedKeys = c.sharedKeys ∧
      (∃ ext, h' = h ++ ext) ∧
      (∀ k a, c.addrOf k = some a → k ∈ c.sharedKeys →
        c'.addrOf k = some a ∧
        (∀ v, c'.readVal (c.mutate h' k v) k = some v ∧
              c.readVal (c'.mutate h' k v) k = some v)) ∧
      (∀ k a, c.addrOf k = some a → k ∉ c.sharedKeys →
        ∃ a', c'.addrOf k = some a' ∧ a' ≠ a ∧ (∀ p ∈ c.entries, a' ≠ p.2) ∧
          h'.readAt a' = h.readAt a ∧
          (∀ v, c.readVal (c'.mutate h' k v) k = c.readVal h' k) ∧
          (∀ v, c'.readVal (c.mutate h' k v) k = c'.readVal h' k))) ∧
    ((∃ p ∈ c.entries, p.1 ∉ c.sharedKeys ∧
        hasNonSerializable (h.readAt p.2) = true) →
      ∀ r, c.copy h ≠ .ok r) := by
  constructor
  · intro c' h' hok
    unfold Context.copy at hok
    cases hcp : copyEntries c.sharedKeys c.entries h with
    | error e => rw [hcp] at hok; cases hok
    | ok p =>
      obtain ⟨es, h₁⟩ := p
      rw [hcp] at hok
      dsimp only at hok
      obtain ⟨hc', hh'⟩ := Prod.mk.injEq _ _ _ _ ▸ Except.ok.inj hok
      subst hc'
      subst hh'
      obtain ⟨⟨ext, hext⟩, hshared, hother⟩ :=
        copyEntries_spec c.sharedKeys c.entries h hwf es h₁ hcp
      have hhlen : h.length ≤ h₁.length := by
        rw [hext]; simp
      refine ⟨rfl, ⟨ext, hext⟩, ?_, ?_⟩
      · intro k a hka hk
        have ha : a < h.length := hwf (k, a) (lookupPairMem c.entries k a hka)
        have haddr : Context.addrOf ⟨es, c.sharedKeys⟩ k = some a :=
          hshared k a hka hk
        refine ⟨haddr, fun v => ?_⟩
        have hread : (Heap.writeAt h₁ a v).readAt a = v :=
          readAt_writeAt_eq h₁ a v (by omega)
        constructor
        · unfold Context.readVal Context.mutate
          rw [hka, haddr]
          simp [hread]
        · unfold Context.readVal Context.mutate
          rw [hka, haddr]
          simp [hread]
      · intro k a hka hk
        have ha : a < h.length := hwf (k, a) (lookupPairMem c.entries k a hka)
        obtain ⟨a', h1, h2, h3, h4⟩ := hother k a hka hk
        have haddr : Context.addrOf ⟨es, c.sharedKeys⟩ k = some a' := h1
        have hne : a' ≠ a := by omega
        refine ⟨a', haddr, hne, ?_, h4, fun v => ?_, fun v => ?_⟩
        · intro p hp
          have := hwf p hp
          omega
        · unfold Context.readVal Context.mutate
          rw [hka, haddr]
          simp only [Option.map_some']
          rw [readAt_writeAt_ne h₁ a' a v hne]
        · unfold Context.readVal Context.mutate
          rw [haddr, hka]
          simp only [Option.map_some']
          rw [readAt_writeAt_ne h₁ a a' v (fun he => hne he.symm)]
  · rintro ⟨p, hp, hknsh, hns⟩ r hok
    unfold Context.copy at hok
    cases hcp : copyEntries c.sharedKeys c.entries h with
    | error e => rw [hcp] at hok; cases hok
    | ok q =>
      exact copyEntries_err c.sharedKeys c.entries h hwf p.1 p.2
        (by simpa using hp) hknsh hns q hcp


/-- Witness for C4 at a concrete context: the non-shared key "a" lands on
a fresh address holding an equal value, the shared key "b" keeps its
address. -/
theorem context_copy_spec_witness :
    ∃ a', ctxW2.addrOf "a" = some a' ∧ a' ≠ 0 ∧
      heapW2.readAt a' = heapW.readAt 0 ∧ ctxW2.addrOf "b" = some 1 := by
  have H := (context_copy_spec ctxW heapW (by decide)).1 ctxW2 heapW2 rfl
  obtain ⟨a', h1, h2, _, h4, _⟩ := H.2.2.2 "a" 0 rfl (by decide)
  have hb := (H.2.2.1 "b" 1 rfl (by decide)).1
  exact ⟨a', h1, h2, h4, hb⟩

/-- Draining with no ready outcome changes nothing. -/
theorem drainJobs_nil_ready (msgs : List Message) (jobs : List JobM) :
    drainJobs msgs jobs [] = (msgs, jobs, false) := by
  induction jobs generalizing msgs with
  | nil => rfl
  | cons j rest ih =>
    unfold drainJobs
    simp [ih]

/-- The loop body returns a final response only when, at the moment of the
completion check, the tracked-job set is empty. -/
theorem handleAction_done_jobs_empty (reg : ToolReg) (a : LLMResponseAction)
    (st : AgentState) (r : String) (fs : AgentState)
    (h : handleAction reg a st = .done r fs) : st.jobs = [] := by
  unfold handleAction at h
  repeat' split at h
  all_goals simp_all

/-- Dispatch on a parsed action with jobs still tracked always continues
the loop with a still-nonempty job set. -/
theorem handleAction_cont_jobs (reg : ToolReg) (a : LLMResponseAction)
    (st : AgentState) (hj : st.jobs ≠ []) :
    ∃ st', handleAction reg a st = .cont st' ∧ st'.jobs ≠ [] := by
  have hjE : ¬(st.jobs.isEmpty = true) := by simp [hj]
  unfold handleAction
  by_cases h1 : isCompleteSignal a = true
  · rw [if_pos h1, if_neg hjE]
    exact ⟨_, rfl, hj⟩
  · rw [if_neg h1]
    by_cases h3 : a.action = "wait"
    · rw [if_pos h3, if_neg hjE]
      exact ⟨_, rfl, hj⟩
    · rw [if_neg h3]
      cases h5 : toolLookup reg a.action with
      | some f =>
        dsimp only
        by_cases h6 : jBoolAssert (lookupLastField a.actionInput "run_in_background") = true
        · rw [if_pos h6]
          exact ⟨_, rfl, by simp⟩
        · rw [if_neg h6]
          cases h7 : f a.actionInput with
          | ok rr => exact ⟨_, rfl, hj⟩
          | error e => exact ⟨_, rfl, hj⟩
      | none => exact ⟨_, rfl, hj⟩

/-- An iteration-consuming pass with jobs still tracked always continues
the loop with a still-nonempty job set. -/
theorem passInvoke_cont_jobs (reg : ToolReg) (resp : String) (st : AgentState)
    (hj : st.jobs ≠ []) :
    ∃ st', passInvoke reg resp st = .cont st' ∧ st'.jobs ≠ [] := by
  unfold passInvoke
  cases hp : parseLLMResponse resp.data with
  | none => exact ⟨_, rfl, hj⟩
  | some a =>
    dsimp only
    exact handleAction_cont_jobs reg a _ hj

/-- A pass whose drain removes nothing keeps a nonempty job set nonempty
and cannot return. -/
theorem agentPass_cont_jobs_nonempty (reg : ToolReg) (inp : PassInput)
    (st : AgentState) (hr : inp.ready = []) (hj : st.jobs ≠ []) :
    ∃ st', agentPass reg inp st = .cont st' ∧ st'.jobs ≠ [] := by
  have hjE : ¬(st.jobs.isEmpty = true) := by simp [hj]
  unfold agentPass
  rw [hr, drainJobs_nil_ready]
  dsimp only
  cases hw : st.waiting with
  | true =>
    rw [if_pos (by simp), if_neg hjE]
    exact ⟨_, rfl, hj⟩
  | false =>
    rw [if_neg (by simp)]
    exact passInvoke_cont_jobs reg inp.resp _ hj

/-- C2: while at least one background job is tracked, a completion Action
never makes `Run` return: the loop appends the refusal note and moves to
the waiting state; the loop body returns a final response only from a
state whose tracked-job set is empty; and over any schedule in which the
jobs never drain, the run never ends in an explicit completion. -/
theorem run_refuses_finish_with_jobs :
    (∀ (reg : ToolReg) (a : LLMResponseAction) (st : AgentState),
      isCompleteSignal a = true → st.jobs ≠ [] →
      handleAction reg a st =
        .cont { st with messages := st.messages ++ [completeBusyNote],
                        waiting := true }) ∧
    (∀ (reg : ToolReg) (a : LLMResponseAction) (st : AgentState)
        (r : String) (fs : AgentState),
      handleAction reg a st = .done r fs → st.jobs = []) ∧
    (∀ (reg : ToolReg) (mi : Nat) (inputs : List PassInput) (st : AgentState),
      (∀ inp ∈ inputs, inp.ready = []) → st.jobs ≠ [] →
      isFinishedOutcome (runLoop reg mi inputs st) = false) := by
  refine ⟨?_, ?_, ?_⟩
  · intro reg a st h1 hj
    have hjE : ¬(st.jobs.isEmpty = true) := by simp [hj]
    unfold handleAction
    rw [if_pos h1, if_neg hjE]
  · exact handleAction_done_jobs_empty
  · intro reg mi inputs
    induction inputs with
    | nil =>
      intro st _ _
      by_cases hlt : st.iter < mi <;>
        simp [runLoop, hlt, isFinishedOutcome]
    | cons inp rest ih =>
      intro st hready hj
      unfold runLoop
      by_cases hlt : st.iter < mi
      · rw [if_pos hlt]
        dsimp only
        obtain ⟨st', hpass, hj'⟩ :=
          agentPass_cont_jobs_nonempty reg inp st
            (hready inp (List.mem_cons_self _ _)) hj
        rw [hpass]
        exact ih st' (fun i hi => hready i (List.mem_cons_of_mem _ hi)) hj'
      · rw [if_neg hlt]
        rfl

/-- Witness for C2: with one tracked job, a completion action yields the
refusal note and the waiting state, and a one-pass schedule that drains
nothing never ends in an explicit completion. -/
theorem run_refuses_finish_with_jobs_witness :
    handleAction [] actFinishW stJobsW =
      .cont { stJobsW with
              messages := stJobsW.messages ++ [completeBusyNote],
              waiting := true } ∧
    isFinishedOutcome (runLoop [] 5 [inpIdleW] stJobsW) = false := by
  refine ⟨run_refuses_finish_with_jobs.1 [] actFinishW stJobsW rfl
    (List.cons_ne_nil _ _), run_refuses_finish_with_jobs.2.2 [] 5 [inpIdleW]
    stJobsW ?_ (List.cons_ne_nil _ _)⟩
  intro i hi
  rw [List.mem_singleton.mp hi]
  rfl

/-- An iteration-consuming pass on a benign response from a jobless state
continues the loop, changing only the message log and the iteration
counter. -/
theorem passInvoke_benign (reg : ToolReg) (resp : String) (st : AgentState)
    (hb : benignResp reg resp) (hj : st.jobs = []) :
    ∃ ms, passInvoke reg resp st =
      .cont { st with messages := ms, iter := st.iter + 1 } := by
  unfold passInvoke
  cases hp : parseLLMResponse resp.data with
  | none => exact ⟨_, rfl⟩
  | some a =>
    dsimp only
    obtain ⟨hc, hbg⟩ := hb a hp
    unfold handleAction
    rw [if_neg (by simp [hc])]
    by_cases h3 : a.action = "wait"
    · rw [if_pos h3, if_pos (by simp [hj])]
      exact ⟨_, rfl⟩
    · rw [if_neg h3]
      cases h5 : toolLookup reg a.action with
      | some f =>
        dsimp only
        rw [if_neg (by simp [hbg f h5])]
        cases h7 : f a.actionInput with
        | ok rr => exact ⟨_, rfl⟩
        | error e => exact ⟨_, rfl⟩
      | none => exact ⟨_, rfl⟩

/-- A full pass on a benign response from a jobless, non-waiting state
continues the loop, changing only the message log and the iteration
counter. -/
theorem agentPass_benign (reg : ToolReg) (inp : PassInput) (st : AgentState)
    (hb : benignResp reg inp.resp) (hj : st.jobs = []) (hw : st.waiting = false) :
    ∃ ms, agentPass reg inp st =
      .cont { st with messages := ms, iter := st.iter + 1 } := by
  obtain ⟨ms0, js, w, it, nj⟩ := st
  simp only at hj hw
  subst hj
  subst hw
  unfold agentPass
  dsimp only [drainJobs]
  exact passInvoke_benign reg inp.resp ⟨ms0, [], false, it, nj⟩ hb rfl

/-- With a benign schedule, a jobless, non-waiting state consumes one
iteration per pass until the budget is exhausted. -/
theorem runLoop_budget_of_benign (reg : ToolReg) (mi : Nat)
    (inputs : List PassInput) :
    ∀ (st : AgentState), st.jobs = [] → st.waiting = false →
      st.iter + inputs.length = mi →
      (∀ inp ∈ inputs, benignResp reg inp.resp) →
      ∃ fs, runLoop reg mi inputs st = .budget fs ∧ fs.iter = mi := by
  induction inputs with
  | nil =>
    intro st hj hw hsum hb
    unfold runLoop
    rw [if_neg (by simp at hsum; omega)]
    exact ⟨st, rfl, by simpa using hsum⟩
  | cons inp rest ih =>
    intro st hj hw hsum hb
    simp only [List.length_cons] at hsum
    unfold runLoop
    rw [if_pos (by omega)]
    dsimp only
    obtain ⟨ms, hpass⟩ :=
      agentPass_benign reg inp st (hb inp (List.mem_cons_self _ _)) hj hw
    rw [hpass]
    exact ih _ (by simpa using hj) (by simpa using hw) (by simp; omega)
      (fun i hi => hb i (List.mem_cons_of_mem _ hi))

/-- C5: for every iteration budget `n ≥ 1`, if the model's responses never
signal completion and never cause the loop to enter the waiting state
(benign responses), `Run` consumes exactly `n` iterations over an
`n`-response schedule and then returns the fixed fallback text with a nil
error. -/
theorem run_max_iterations_fallback (reg : ToolReg) (sys user : String)
    (n : Nat) (inputs : List PassInput) (h1 : 1 ≤ n) (hlen : inputs.length = n)
    (hb : ∀ inp ∈ inputs, benignResp reg inp.resp) :
    ∃ fs, agentRun reg n inputs sys user = .budget fs ∧ fs.iter = n ∧
      goReturn (agentRun reg n inputs sys user) = some (fallbackText, none) := by
  obtain ⟨fs, hrun, hiter⟩ :=
    runLoop_budget_of_benign reg n inputs (initState sys user) rfl rfl
      (by simpa [initState] using hlen) hb
  refine ⟨fs, ?_, hiter, ?_⟩
  · unfold agentRun
    exact hrun
  · unfold agentRun
    rw [hrun]
    rfl

/-- Witness for C5: a 2-iteration budget with two unparsable (hence
benign) responses ends in the fallback with nil error after exactly 2
iterations. -/
theorem run_max_iterations_fallback_witness :
    ∃ fs, agentRun [] 2 inputsBenignW "sys" "ask" = .budget fs ∧ fs.iter = 2 ∧
      goReturn (agentRun [] 2 inputsBenignW "sys" "ask") =
        some (fallbackText, none) := by
  apply run_max_iterations_fallback [] "sys" "ask" 2 inputsBenignW
    (by omega) rfl
  intro inp hi a hpa
  rcases List.mem_cons.mp hi with h | h
  · subst h
    exact Option.noConfusion hpa
  · rw [List.mem_singleton.mp h] at hpa
    exact Option.noConfusion hpa

/-- C8: when the parsed Action names no registered tool (and is neither
`wait` nor a completion signal), the pass appends the error message that
lists exactly the registered tool names, continues the loop, and leaves
all agent state other than the message log and the iteration counter
unchanged. -/
theorem unknown_tool_spec (reg : ToolReg) (inp : PassInput) (st : AgentState)
    (a : LLMResponseAction)
    (hw : st.waiting = false) (hr : inp.ready = [])
    (hp : parseLLMResponse inp.resp.data = some a)
    (hc : isCompleteSignal a = false) (hwt : a.action ≠ "wait")
    (hnf : toolLookup reg a.action = none)
    (hnd : (getToolNames reg).Nodup) :
    agentPass reg inp st = .cont { st with
      messages := st.messages ++ [assistantMsg inp.resp,
                                  unknownToolMsg a.action reg],
      iter := st.iter + 1 } := by
  unfold agentPass
  rw [hr, drainJobs_nil_ready]
  dsimp only
  rw [if_neg (by simp [hw])]
  unfold passInvoke
  rw [hp]
  dsimp only
  unfold handleAction
  rw [if_neg (by simp [hc]), if_neg hwt, hnf]
  dsimp only
  simp

/-- Witness for C8: a response naming the unregistered tool "nosuch"
against a registry holding only "echo" appends the error listing
exactly "echo" and continues. -/
theorem unknown_tool_spec_witness :
    agentPass regEchoW inpUnknownW stEmptyW = .cont { stEmptyW with
      messages := stEmptyW.messages ++ [assistantMsg respUnknownW,
                                        unknownToolMsg "nosuch" regEchoW],
      iter := stEmptyW.iter + 1 } :=
  unknown_tool_spec regEchoW inpUnknownW stEmptyW actUnknownW rfl rfl rfl
    rfl (by decide) rfl (by decide)

/-- C9: an Action with `status = "complete"` is treated as a completion
signal no matter what the `action` field names — even a registered tool is
not executed, and (with no jobs tracked) the pass returns the
`final_response` payload; likewise `action = "finish"` completes for every
status other than `"continue"`. -/
theorem complete_signal_overrides_action (reg : ToolReg)
    (a : LLMResponseAction) (st : AgentState) (hjobs : st.jobs = [])
    (hc : a.status = "complete" ∨ (a.action = "finish" ∧ a.status ≠ "continue")) :
    handleAction reg a st = .done (finalRespOf a.actionInput) st := by
  have h1 : isCompleteSignal a = true := by
    unfold isCompleteSignal
    rcases hc with h | ⟨ha, hs⟩
    · simp [h]
    · simp [ha, hs]
  unfold handleAction
  rw [if_pos h1, if_pos (by simp [hjobs])]

/-- Witness for C9: a completion whose `action` field names the
registered tool "echo" still returns the final response; the tool
function is never invoked. -/
theorem complete_signal_overrides_action_witness :
    handleAction regEchoW actToolCompleteW stEmptyW =
      .done "the answer" stEmptyW :=
  complete_signal_overrides_action regEchoW actToolCompleteW stEmptyW rfl
    (Or.inl rfl)

/-- C10: a completing Action (with no jobs tracked) whose `action_input`
has no string-valued `final_response` entry — missing entirely or of a
non-string type — makes the pass return the empty string, which `Run`
surfaces with a nil error rather than a failure. -/
theorem complete_without_final_response (reg : ToolReg)
    (a : LLMResponseAction) (st : AgentState) (hjobs : st.jobs = [])
    (hc : isCompleteSignal a = true)
    (hfr : ∀ s, lookupLastField a.actionInput "final_response" ≠
      some (.jstr s)) :
    handleAction reg a st = .done "" st ∧
    goReturn (.finished "" st) = some ("", none) := by
  constructor
  · unfold handleAction
    rw [if_pos hc, if_pos (by simp [hjobs])]
    have hz : finalRespOf a.actionInput = "" := by
      unfold finalRespOf jStrAssert
      cases hl : lookupLastField a.actionInput "final_response" with
      | none => rfl
      | some v =>
        cases v with
        | jstr s => exact absurd hl (hfr s)
        | null => rfl
        | jbool b => rfl
        | jnum n => rfl
        | jarr l => rfl
        | jobj o => rfl
    rw [hz]
  · rfl

/-- Witness for C10: a completion whose `final_response` is the number 42
returns the empty string. -/
theorem complete_without_final_response_witness :
    handleAction [] actBadFinalW stEmptyW = .done "" stEmptyW ∧
    goReturn (.finished "" stEmptyW) = some ("", none) :=
  complete_without_final_response [] actBadFinalW stEmptyW rfl rfl
    (fun s h => by simp [actBadFinalW, lookupLastField] at h)

/-- Closed form of the aggregation loop: one labeled section per task in
index order, plus the error strings of the failed tasks in index order. -/
theorem aggregate_eq (env : Nat → String → ChildOutcome) (ts : List JVal) :
    ∀ i, aggregate env i ts =
      (joinAll ((ts.enumFrom i).map
        (fun p => (sectionOf p.1 (taskSlots env p.1 p.2)).1)),
       (ts.enumFrom i).filterMap
        (fun p => (sectionOf p.1 (taskSlots env p.1 p.2)).2)) := by
  induction ts with
  | nil => intro i; rfl
  | cons t ts ih =>
    intro i
    unfold aggregate
    rw [ih (i + 1)]
    dsimp only [List.enumFrom, List.map, List.filterMap, joinAll]
    cases hsec : (sectionOf i (taskSlots env i t)).2 <;> simp [hsec]

/-- A section contributes no error string exactly when its task slot
carries no error. -/
theorem sectionOf_err_none (i : Nat) (s : String × Option String) :
    (sectionOf i s).2 = none ↔ s.2 = none := by
  unfold sectionOf
  cases h : s.2 <;> simp

/-- C3 (amended): the parallel delegator's aggregate output is one labeled
section per task in input order; the overall error is nil exactly when no
task failed, and otherwise combines the failed tasks' error strings in
index order; each task's slot depends only on its own outcome; and a task
whose child run fails is named in the error by its 0-based index (its
section label is 1-based). -/
theorem parallel_delegator_spec (env : Nat → String → ChildOutcome)
    (tasks : List JVal) :
    (parallelExecute env [("tasks", .jarr tasks)]).1 =
      joinAll ((tasks.enum).map
        (fun p => (sectionOf p.1 (taskSlots env p.1 p.2)).1)) ∧
    ((parallelExecute env [("tasks", .jarr tasks)]).2 = none ↔
      ∀ p ∈ tasks.enum, (taskSlots env p.1 p.2).2 = none) ∧
    (∀ errs, (parallelExecute env [("tasks", .jarr tasks)]).2 = some errs →
      errs = String.intercalate "; " ((tasks.enum).filterMap
        (fun p => (sectionOf p.1 (taskSlots env p.1 p.2)).2))) ∧
    (∀ (env' : Nat → String → ChildOutcome) (p : Nat × JVal),
      p ∈ tasks.enum → env p.1 = env' p.1 →
      taskSlots env p.1 p.2 = taskSlots env' p.1 p.2) ∧
    (∀ i s e, env i s = .runFail e →
      taskSlots env i (.jstr s) =
        ("子 agent 执行失败: " ++ e,
         some ("任务 #" ++ toString i ++ ": 执行失败: " ++ e))) := by
  have hagg := aggregate_eq env tasks 0
  have hlk : lookupLastField [("tasks", JVal.jarr tasks)] "tasks" =
      some (JVal.jarr tasks) := by simp [lookupLastField]
  refine ⟨?_, ?_, ?_, ?_, ?_⟩
  · unfold parallelExecute
    rw [hlk]
    dsimp only
    rw [hagg]
    rfl
  · unfold parallelExecute
    rw [hlk]
    dsimp only
    rw [hagg]
    dsimp only
    by_cases he : (tasks.enumFrom 0).filterMap
        (fun p => (sectionOf p.1 (taskSlots env p.1 p.2)).2) = []
    · rw [he]
      simp only [List.isEmpty_nil, if_true]
      constructor
      · intro _ p hp
        have := (List.filterMap_eq_nil.mp he) p hp
        exact (sectionOf_err_none p.1 _).mp this
      · intro _; trivial
    · have : ((tasks.enumFrom 0).filterMap
          (fun p => (sectionOf p.1 (taskSlots env p.1 p.2)).2)).isEmpty = false := by
        simp [he]
      rw [this]
      simp only [Bool.false_eq_true, if_false]
      constructor
      · intro h; cases h
      · intro hall
        exfalso
        apply he
        rw [List.filterMap_eq_nil]
        intro p hp
        exact (sectionOf_err_none p.1 _).mpr (hall p hp)
  · intro errs
    unfold parallelExecute
    rw [hlk]
    dsimp only
    rw [hagg]
    dsimp only
    by_cases he : ((tasks.enumFrom 0).filterMap
        (fun p => (sectionOf p.1 (taskSlots env p.1 p.2)).2)).isEmpty = true
    · rw [if_pos he]
      intro h; cases h
    · rw [if_neg he]
      intro h
      exact (Option.some.inj h).symm
  · intro env' p _ henv
    unfold taskSlots
    cases p.2 with
    | jstr s => rw [henv]
    | null => rfl
    | jbool b => rfl
    | jnum n => rfl
    | jarr l => rfl
    | jobj o => rfl
  · intro i s e hrun
    unfold taskSlots
    dsimp only
    rw [hrun]

set_option maxRecDepth 20000 in
/-- Counterexample to C3 as stated: with tasks `[T1, T2, T3]` and only
T2's child run failing, the aggregate holds three sections labeled 1, 2, 3
in order, but the returned failure names the failed task as `任务 #1`
(0-based) and contains no occurrence of `#2` — it does not name task
index 2. -/
theorem parallel_delegator_cex :
    parallelExecute envCexC3 argsCexC3 =
      ("--- 任务 #1 结果 ---\ndone\n--- 任务 #2 结果 ---\n错误: 任务 #1: 执行失败: boom\n--- 任务 #3 结果 ---\ndone\n",
       some "错误: 任务 #1: 执行失败: boom") ∧
    containsSeg "任务 #2".data "错误: 任务 #1: 执行失败: boom".data = false ∧
    containsSeg "#2".data "错误: 任务 #1: 执行失败: boom".data = false ∧
    containsSeg "任务 #2".data (parallelExecute envCexC3 argsCexC3).1.data = true :=
  ⟨rfl, rfl, rfl, rfl⟩

/-- Witness for the amended C3 at the counterexample input: the aggregate
text has the per-task section shape, and the overall error is not nil
because task 1 (0-based) failed. -/
theorem parallel_delegator_spec_witness :
    (parallelExecute envCexC3 [("tasks", .jarr tasksCexC3)]).1 =
      joinAll ((tasksCexC3.enum).map
        (fun p => (sectionOf p.1 (taskSlots envCexC3 p.1 p.2)).1)) ∧
    ¬((parallelExecute envCexC3 [("tasks", .jarr tasksCexC3)]).2 = none) := by
  have H := parallel_delegator_spec envCexC3 tasksCexC3
  refine ⟨H.1, ?_⟩
  intro hnone
  have hmem : ((1 : Nat), JVal.jstr "T2") ∈ tasksCexC3.enum :=
    List.mem_cons_of_mem _ (List.mem_cons_self _ _)
  have hz := (H.2.1).mp hnone ((1 : Nat), JVal.jstr "T2") hmem
  exact Option.noConfusion hz

end Hivemind
